import Mathlib

/-!
Verification of the geometry-processing core of `optimize_geojson.py`
(coordinate counting, coordinate rounding, Douglas-Peucker line
simplification, and per-geometry-type dispatch).

Numeric model: the Python source computes with machine floats; here every
numeric value is an exact rational (`ℚ`).  The source compares
`d > dmax` and `dmax > tolerance` where `d` is obtained from a square
root; since all the compared quantities are non-negative, comparing the
squares is equivalent, so the embedding tracks squared distances and
compares against `tolerance * tolerance`.  This is faithful whenever
`tolerance ≥ 0` (every claim is in that regime; for a negative tolerance
the source can recurse forever on degenerate input).
-/

/-- A node of the nested `coordinates` array of a geometry: either a
number or a list of nodes, mirroring the JSON values the Python code
manipulates. -/
inductive Coord where
  | num (q : ℚ)
  | arr (l : List Coord)

mutual

def coordDecEq : (a b : Coord) → Decidable (a = b)
  | .num p, .num q =>
    match decEq p q with
    | isTrue h => isTrue (by rw [h])
    | isFalse h => isFalse (fun hh => by cases hh; exact h rfl)
  | .num _, .arr _ => isFalse (fun h => by cases h)
  | .arr _, .num _ => isFalse (fun h => by cases h)
  | .arr l, .arr m =>
    match coordListDecEq l m with
    | isTrue h => isTrue (by rw [h])
    | isFalse h => isFalse (fun hh => by cases hh; exact h rfl)

def coordListDecEq : (a b : List Coord) → Decidable (a = b)
  | [], [] => isTrue rfl
  | [], _ :: _ => isFalse (fun h => by cases h)
  | _ :: _, [] => isFalse (fun h => by cases h)
  | a :: as, b :: bs =>
    match coordDecEq a b, coordListDecEq as bs with
    | isTrue h1, isTrue h2 => isTrue (by rw [h1, h2])
    | isFalse h1, _ => isFalse (fun hh => by cases hh; exact h1 rfl)
    | _, isFalse h2 => isFalse (fun hh => by cases hh; exact h2 rfl)

end

instance : DecidableEq Coord := coordDecEq

/-- Default value handed to list indexing; the source never actually
reads out of range at the places this default is used. -/
def cdflt : Coord := Coord.arr []

/-- View a coordinate node as a Python list.  A numeric node is not a
list (iterating or taking `len` of it raises in Python); the claims only
exercise list-shaped nodes, and the default `[]` keeps the embedding
total. -/
def asList : Coord → List Coord
  | .num _ => []
  | .arr l => l

/-- Python `len` of a coordinate node (`len` of a number raises; the
total embedding returns 0 there, a case no claim exercises). -/
def clen : Coord → ℕ
  | .num _ => 0
  | .arr l => l.length

/-- One term of the MultiPoint/MultiLineString count:
`len(part) if isinstance(part, list) else 1`. -/
def partLen : Coord → ℕ
  | .num _ => 1
  | .arr l => l.length

/-- Python truthiness of a `coordinates` value: `0` and `[]` are falsy. -/
def falsyC : Coord → Bool
  | .num q => q = 0
  | .arr l => l.isEmpty

/-- `point[0]` read as a number (the x coordinate used by the distance
formula). -/
def pxq : Coord → ℚ
  | .arr (.num x :: _) => x
  | _ => 0

/-- `point[1]` read as a number (the y coordinate used by the distance
formula). -/
def pyq : Coord → ℚ
  | .arr (_ :: .num y :: _) => y
  | _ => 0

/-- A geometry record: the `type` tag string, the optional
`coordinates` value, and the `geometries` list (present for
GeometryCollection, defaulted to `[]` by `geometry.get` elsewhere). -/
inductive Geometry where
  | mk (type : String) (coordinates : Option Coord) (geometries : List Geometry)

mutual

def geomDecEq : (a b : Geometry) → Decidable (a = b)
  | .mk t1 c1 g1, .mk t2 c2 g2 =>
    match decEq t1 t2, decEq c1 c2, geomListDecEq g1 g2 with
    | isTrue h1, isTrue h2, isTrue h3 => isTrue (by rw [h1, h2, h3])
    | isFalse h1, _, _ => isFalse (fun hh => by cases hh; exact h1 rfl)
    | _, isFalse h2, _ => isFalse (fun hh => by cases hh; exact h2 rfl)
    | _, _, isFalse h3 => isFalse (fun hh => by cases hh; exact h3 rfl)

def geomListDecEq : (a b : List Geometry) → Decidable (a = b)
  | [], [] => isTrue rfl
  | [], _ :: _ => isFalse (fun h => by cases h)
  | _ :: _, [] => isFalse (fun h => by cases h)
  | a :: as, b :: bs =>
    match geomDecEq a b, geomListDecEq as bs with
    | isTrue h1, isTrue h2 => isTrue (by rw [h1, h2])
    | isFalse h1, _ => isFalse (fun hh => by cases hh; exact h1 rfl)
    | _, isFalse h2 => isFalse (fun hh => by cases hh; exact h2 rfl)

end

instance : DecidableEq Geometry := geomDecEq

def Geometry.type : Geometry → String
  | .mk t _ _ => t

def Geometry.coordinates : Geometry → Option Coord
  | .mk _ c _ => c

def Geometry.geometries : Geometry → List Geometry
  | .mk _ _ gs => gs

/-- The `coordinates` field with default `[]` when absent, as read by
`count_coordinates` and `simplify_geometry` via `geometry.get`. -/
def coordsD (c : Option Coord) : Coord := c.getD (Coord.arr [])

/-! ## CoordinateCounter: `count_coordinates` (source lines 23 to 44) -/

mutual

/-- Body of `count_coordinates` for a non-falsy geometry record,
dispatching on the `type` tag in source order. -/
def countG : Geometry → ℕ
  | .mk ty c gs =>
    if ty = "Point" then 1
    else if ty = "LineString" then clen (coordsD c)
    else if ty = "Polygon" then ((asList (coordsD c)).map clen).sum
    else if ty = "MultiPolygon" then
      ((asList (coordsD c)).map (fun polygon => ((asList polygon).map clen).sum)).sum
    else if ty = "MultiPoint" ∨ ty = "MultiLineString" then
      ((asList (coordsD c)).map partLen).sum
    else if ty = "GeometryCollection" then countList gs
    else 0

/-- Sum of `countG` over the `geometries` list of a GeometryCollection. -/
def countList : List Geometry → ℕ
  | [] => 0
  | g :: rest => countG g + countList rest

end

/-- `count_coordinates(geometry)`: a falsy argument (absent geometry or
empty record) counts as 0, otherwise dispatch on the type tag. -/
def count_coordinates : Option Geometry → ℕ
  | none => 0
  | some g => countG g

/-! ## CoordinateRounder: `round_coordinates` (source lines 46 to 66) -/

/-- Round half to even at integer resolution, the rounding convention of
the Python builtin `round` (modelled on exact rationals). -/
def rhe (q : ℚ) : ℤ :=
  let f : ℤ := ⌊q⌋
  if q - f < 1/2 then f
  else if 1/2 < q - f then f + 1
  else if f % 2 = 0 then f else f + 1

/-- Python `round(c, precision)` on an exact rational. -/
def pyround (q : ℚ) (precision : ℕ) : ℚ :=
  (rhe (q * 10 ^ precision) : ℚ) / 10 ^ precision

mutual

/-- The inner helper `round_coord`: round a number, recurse through a
list.  (Leaves that are neither numbers nor lists are returned
unchanged by the source; this universe of values has no such leaves.) -/
def round_coord (precision : ℕ) : Coord → Coord
  | .num q => .num (pyround q precision)
  | .arr l => .arr (round_list precision l)

/-- The list comprehension inside `round_coord`. -/
def round_list (precision : ℕ) : List Coord → List Coord
  | [] => []
  | c :: rest => round_coord precision c :: round_list precision rest

end

/-- `round_coordinates(geometry, precision)`.  The source mutates
`geometry` in place and returns it; the returned value below is both
the result and the post-call value of the argument object.  A falsy
`coordinates` value (absent, `0`, or `[]`) short-circuits unchanged. -/
def round_coordinates (g : Geometry) (precision : ℕ) : Geometry :=
  match g with
  | .mk ty none gs => .mk ty none gs
  | .mk ty (some c) gs =>
    if falsyC c then .mk ty (some c) gs
    else .mk ty (some (round_coord precision c)) gs

/-- The value of the caller side argument object after
`round_coordinates` returns: the source docstring says the function
modifies the geometry in place and returns that same object, so the
post-call value of the argument coincides with the returned value. -/
def round_coordinates_post (g : Geometry) (precision : ℕ) : Geometry :=
  round_coordinates g precision

/-! ## LineSimplifier: `simplify_line` (source lines 68 to 114) -/

/-- Squared form of the inner `perpendicular_distance`: the source
computes `num / den` with `den = sqrt((y2-y1)^2 + (x2-x1)^2)`, falling
back to the Euclidean distance to the start point when `den == 0`.
All compared distances are non-negative, so the algorithm is embedded
on squared distances (see the file header). -/
def perpendicular_distance_sq (point lineStart lineEnd : Coord) : ℚ :=
  let x := pxq point
  let y := pyq point
  let x1 := pxq lineStart
  let y1 := pyq lineStart
  let x2 := pxq lineEnd
  let y2 := pyq lineEnd
  let numv := (y2 - y1) * x - (x2 - x1) * y + x2 * y1 - y2 * x1
  let den2 := (y2 - y1) ^ 2 + (x2 - x1) ^ 2
  if den2 = 0 then (x - x1) ^ 2 + (y - y1) ^ 2
  else numv ^ 2 / den2

/-- The `for i in range(1, end)` maximum search: starting from
`index = 0, dmax = 0`, replace the accumulator whenever a strictly
larger distance is found (first occurrence wins on ties). -/
def scanMax (f : ℕ → ℚ) : List ℕ → ℕ × ℚ → ℕ × ℚ
  | [], acc => acc
  | i :: rest, acc => scanMax f rest (if acc.2 < f i then (i, f i) else acc)

/-- The recursive `douglas_peucker`.  The fuel argument bounds the
recursion depth; both recursive calls are on strictly shorter lists, so
any fuel at least the list length gives the source behaviour, and the
fuel-exhausted branch (which coincides with the two-point base case
whenever fuel bounds the length) is never reached from `simplify_line`.
The comparison `tolerance * tolerance < dmax_sq` embeds the source
comparison `dmax > tolerance` on squared distances. -/
def douglas_peucker (tolerance : ℚ) : ℕ → List Coord → List Coord
  | 0, points => points
  | fuel + 1, points =>
    if points.length ≤ 2 then points
    else
      let e := points.length - 1
      let m := scanMax
        (fun i => perpendicular_distance_sq (points.getD i cdflt)
          (points.getD 0 cdflt) (points.getD e cdflt))
        (List.range' 1 (points.length - 2)) (0, 0)
      if tolerance * tolerance < m.2 then
        (douglas_peucker tolerance fuel (points.take (m.1 + 1))).dropLast
          ++ douglas_peucker tolerance fuel (points.drop m.1)
      else
        [points.getD 0 cdflt, points.getD e cdflt]

/-- `simplify_line(coords, tolerance)`: short input is returned as is,
otherwise run Douglas-Peucker (fuel = input length, which bounds every
recursive call). -/
def simplify_line (coords : List Coord) (tolerance : ℚ) : List Coord :=
  if coords.length ≤ 2 then coords
  else douglas_peucker tolerance coords.length coords

/-! ## GeometrySimplifier: `simplify_geometry` (source lines 116 to 167) -/

/-- `simplify_geometry(geometry, tolerance)`.  Point and MultiPoint are
returned untouched; LineString keeps its simplification only when it
retains at least 2 points; MultiLineString and Polygon fall back to the
original line or ring per part (minimum 2 and 4 points respectively);
MultiPolygon applies the per-ring rule and drops a polygon only when
the resulting ring list is empty; every other tag (including
GeometryCollection) falls through unchanged.  As in the source, the
returned record is the argument object after its in-place update. -/
def simplify_geometry (g : Geometry) (tolerance : ℚ) : Geometry :=
  match g with
  | .mk ty c gs =>
    if ty = "Point" ∨ ty = "MultiPoint" then .mk ty c gs
    else if ty = "LineString" then
      let simplified := simplify_line (asList (coordsD c)) tolerance
      if 2 ≤ simplified.length then .mk ty (some (.arr simplified)) gs
      else .mk ty c gs
    else if ty = "MultiLineString" then
      .mk ty (some (.arr ((asList (coordsD c)).map (fun line =>
        let s := simplify_line (asList line) tolerance
        if 2 ≤ s.length then .arr s else line)))) gs
    else if ty = "Polygon" then
      .mk ty (some (.arr ((asList (coordsD c)).map (fun ring =>
        let s := simplify_line (asList ring) tolerance
        if 4 ≤ s.length then .arr s else ring)))) gs
    else if ty = "MultiPolygon" then
      .mk ty (some (.arr ((asList (coordsD c)).filterMap (fun polygon =>
        let sp := (asList polygon).map (fun ring =>
          let s := simplify_line (asList ring) tolerance
          if 4 ≤ s.length then .arr s else ring)
        if sp.isEmpty then none else some (.arr sp))))) gs
    else .mk ty c gs

/-- The value of the caller side argument object after
`simplify_geometry` returns: the source assigns
`geometry[...] = simplified` in place on its argument and returns that
same object, so the post-call value of the argument coincides with the
returned value. -/
def simplify_geometry_post (g : Geometry) (tolerance : ℚ) : Geometry :=
  simplify_geometry g tolerance

/-! ## Derived notions used by the claims -/

mutual

/-- Nesting depth of a coordinate tree: a number has depth 0, a list is
one deeper than its deepest element. -/
def depthC : Coord → ℕ
  | .num _ => 0
  | .arr l => depthList l + 1

def depthList : List Coord → ℕ
  | [] => 0
  | c :: rest => max (depthC c) (depthList rest)

end

/-- Nesting depth of the `coordinates` payload of a geometry record. -/
def depthG (g : Geometry) : ℕ :=
  match g.coordinates with
  | none => 0
  | some c => depthC c

/-- Exact collinearity of three points (vanishing cross product of the
two difference vectors), read through the same accessors the distance
formula uses. -/
def collin (a b c : Coord) : Prop :=
  (pxq b - pxq a) * (pyq c - pyq a) - (pxq c - pxq a) * (pyq b - pyq a) = 0

instance (a b c : Coord) : Decidable (collin a b c) := by
  unfold collin; infer_instance

/-! ## Lemmas about the maximum-distance scan -/

theorem scanMax_cases (f : ℕ → ℚ) :
    ∀ (l : List ℕ) (acc : ℕ × ℚ),
      scanMax f l acc = acc ∨ ∃ i ∈ l, scanMax f l acc = (i, f i)
  | [], _ => Or.inl rfl
  | i :: rest, acc => by
    simp only [scanMax]
    rcases scanMax_cases f rest (if acc.2 < f i then (i, f i) else acc) with h | ⟨j, hj, hje⟩
    · rw [h]
      by_cases hc : acc.2 < f i
      · rw [if_pos hc]
        exact Or.inr ⟨i, List.mem_cons_self i rest, rfl⟩
      · rw [if_neg hc]
        exact Or.inl rfl
    · exact Or.inr ⟨j, List.mem_cons_of_mem i hj, hje⟩

theorem scanMax_acc_le (f : ℕ → ℚ) :
    ∀ (l : List ℕ) (acc : ℕ × ℚ), acc.2 ≤ (scanMax f l acc).2
  | [], _ => le_refl _
  | i :: rest, acc => by
    simp only [scanMax]
    by_cases hc : acc.2 < f i
    · rw [if_pos hc]
      have h2 := scanMax_acc_le f rest (i, f i)
      exact le_trans (le_of_lt hc) h2
    · rw [if_neg hc]
      exact scanMax_acc_le f rest acc

theorem scanMax_le_of_mem (f : ℕ → ℚ) :
    ∀ (l : List ℕ) (acc : ℕ × ℚ) (i : ℕ), i ∈ l → f i ≤ (scanMax f l acc).2
  | [], _, i, hmem => absurd hmem (List.not_mem_nil i)
  | i0 :: rest, acc, i, hmem => by
    simp only [scanMax]
    rcases List.mem_cons.mp hmem with heq | hrest
    · subst heq
      by_cases hc : acc.2 < f i
      · rw [if_pos hc]
        exact scanMax_acc_le f rest (i, f i)
      · rw [if_neg hc]
        exact le_trans (le_of_not_lt hc) (scanMax_acc_le f rest acc)
    · by_cases hc : acc.2 < f i0
      · rw [if_pos hc]
        exact scanMax_le_of_mem f rest _ i hrest
      · rw [if_neg hc]
        exact scanMax_le_of_mem f rest _ i hrest

/-- If the scan over the interior indices ends strictly positive, the
winning index was set by some interior index. -/
theorem scanMax_bounds (f : ℕ → ℚ) (n : ℕ)
    (hpos : 0 < (scanMax f (List.range' 1 n) (0, 0)).2) :
    1 ≤ (scanMax f (List.range' 1 n) (0, 0)).1 ∧
      (scanMax f (List.range' 1 n) (0, 0)).1 ≤ n := by
  rcases scanMax_cases f (List.range' 1 n) (0, 0) with h | ⟨i, hi, hie⟩
  · rw [h] at hpos
    exact absurd hpos (lt_irrefl 0)
  · rw [hie]
    have hb := List.mem_range'_1.mp hi
    exact ⟨hb.1, by omega⟩

theorem perpendicular_distance_sq_nonneg (p a b : Coord) :
    0 ≤ perpendicular_distance_sq p a b := by
  unfold perpendicular_distance_sq
  dsimp only
  split
  · positivity
  · next h =>
    have hd : 0 < (pyq b - pyq a) ^ 2 + (pxq b - pxq a) ^ 2 :=
      lt_of_le_of_ne (by positivity) (Ne.symm h)
    exact div_nonneg (sq_nonneg _) (le_of_lt hd)

/-! ## Structural lemmas about `douglas_peucker` -/

/-- Stripping a common final element preserves the subsequence
relation. -/
theorem sublist_of_append_singleton {α : Type} (a : α) {xs ys : List α}
    (h : List.Sublist (xs ++ [a]) (ys ++ [a])) : List.Sublist xs ys := by
  have hr := h.reverse
  simp only [List.reverse_append, List.reverse_cons, List.reverse_nil,
    List.nil_append, List.singleton_append] at hr
  rw [← List.reverse_sublist]
  exact (List.cons_sublist_cons).mp hr

/-- A list that has a `head?` is not empty. -/
theorem ne_nil_of_head?_some {α : Type} {l : List α} {a : α}
    (h : l.head? = some a) : l ≠ [] := by
  cases l with
  | nil => cases h
  | cons x xs => exact List.cons_ne_nil x xs

/-- Core structural property of the recursive Douglas-Peucker pass: the
output is an order-preserving subsequence of the input with the same
first and last element. -/
theorem dp_main (tol : ℚ) :
    ∀ (fuel : ℕ) (pts : List Coord),
      (douglas_peucker tol fuel pts).Sublist pts ∧
      (douglas_peucker tol fuel pts).head? = pts.head? ∧
      (douglas_peucker tol fuel pts).getLast? = pts.getLast?
  | 0, pts => ⟨List.Sublist.refl _, rfl, rfl⟩
  | fuel + 1, pts => by
    simp only [douglas_peucker]
    by_cases hlen : pts.length ≤ 2
    · rw [if_pos hlen]
      exact ⟨List.Sublist.refl _, rfl, rfl⟩
    rw [if_neg hlen]
    push_neg at hlen
    have h0n : 0 < pts.length := by omega
    have hel : pts.length - 1 < pts.length := by omega
    have hp0 : pts[0]? = some pts[0] := List.getElem?_eq_getElem h0n
    have hhead : pts.head? = some pts[0] := by
      rw [List.head?_eq_getElem?, hp0]
    have hlast : pts.getLast? = pts[pts.length - 1]? := List.getLast?_eq_getElem? pts
    have hpe : pts[pts.length - 1]? = some pts[pts.length - 1] :=
      List.getElem?_eq_getElem hel
    by_cases hgt : tol * tol <
        (scanMax (fun i => perpendicular_distance_sq (pts.getD i cdflt)
            (pts.getD 0 cdflt) (pts.getD (pts.length - 1) cdflt))
          (List.range' 1 (pts.length - 2)) (0, 0)).2
    · rw [if_pos hgt]
      set f := fun i => perpendicular_distance_sq (pts.getD i cdflt)
        (pts.getD 0 cdflt) (pts.getD (pts.length - 1) cdflt) with hf
      set m := scanMax f (List.range' 1 (pts.length - 2)) (0, 0) with hm
      have hmpos : 0 < m.2 := lt_of_le_of_lt (mul_self_nonneg tol) hgt
      obtain ⟨hk1, hk2⟩ := scanMax_bounds f (pts.length - 2) hmpos
      set k := m.1 with hk
      have hklt : k < pts.length := by omega
      have hpk : pts[k]? = some pts[k] := List.getElem?_eq_getElem hklt
      have hLlen : (pts.take (k + 1)).length = k + 1 := by
        rw [List.length_take]; omega
      have hLhead : (pts.take (k + 1)).head? = pts.head? := by
        rw [List.head?_eq_getElem?, List.head?_eq_getElem?, List.getElem?_take]
        simp
      have hLlast : (pts.take (k + 1)).getLast? = some pts[k] := by
        rw [List.getLast?_eq_getElem?, hLlen, List.getElem?_take]
        simp [hpk]
      have hLeq : pts.take (k + 1) = pts.take k ++ [pts[k]] := by
        rw [List.take_succ, hpk]
        rfl
      have hRhead : (pts.drop k).head? = some pts[k] := by
        rw [List.head?_eq_getElem?, List.getElem?_drop]
        simp [hpk]
      have hRlast : (pts.drop k).getLast? = pts.getLast? := by
        rw [List.getLast?_eq_getElem?, List.length_drop, List.getElem?_drop, hlast]
        congr 1
        omega
      obtain ⟨ihLsub, ihLhead, ihLlast⟩ := dp_main tol fuel (pts.take (k + 1))
      obtain ⟨ihRsub, ihRhead, ihRlast⟩ := dp_main tol fuel (pts.drop k)
      set dpL := douglas_peucker tol fuel (pts.take (k + 1)) with hdpL
      set dpR := douglas_peucker tol fuel (pts.drop k) with hdpR
      have hdpLne : dpL ≠ [] := by
        apply ne_nil_of_head?_some
        rw [ihLhead, hLhead, hhead]
      have hdpRne : dpR ≠ [] := by
        apply ne_nil_of_head?_some
        rw [ihRhead, hRhead]
      have hdpLlast : dpL.getLast hdpLne = pts[k] := by
        have h1 := List.getLast?_eq_getLast dpL hdpLne
        rw [ihLlast, hLlast] at h1
        exact (Option.some_inj.mp h1).symm
      have hdpLdec : dpL.dropLast ++ [pts[k]] = dpL := by
        rw [← hdpLlast]
        exact List.dropLast_concat_getLast hdpLne
      have hstrip : List.Sublist dpL.dropLast (pts.take k) := by
        apply sublist_of_append_singleton pts[k]
        rw [hdpLdec, ← hLeq]
        exact ihLsub
      refine ⟨?_, ?_, ?_⟩
      · have hsub : List.Sublist (dpL.dropLast ++ dpR) (pts.take k ++ pts.drop k) :=
          List.Sublist.append hstrip ihRsub
        rwa [List.take_append_drop] at hsub
      · cases hdl : dpL.dropLast with
        | nil =>
          have hsingle : dpL = [pts[k]] := by
            rw [← hdpLdec, hdl]
            rfl
          have hdlh : dpL.head? = some pts[k] := by rw [hsingle]; rfl
          rw [ihLhead, hLhead, hhead] at hdlh
          rw [List.nil_append, ihRhead, hRhead, hhead]
          exact hdlh.symm
        | cons y ys =>
          have hdlh : dpL.head? = some y := by
            rw [← hdpLdec, hdl]
            rfl
          rw [ihLhead, hLhead, hhead] at hdlh
          rw [List.cons_append, List.head?_cons, hhead]
          exact hdlh.symm
      · rw [List.getLast?_append, ihRlast, hRlast, hlast, hpe]
        rfl
    · rw [if_neg hgt]
      have hgd0 : pts.getD 0 cdflt = pts[0] := by
        rw [List.getD_eq_getElem?_getD, hp0]
        rfl
      have hgde : pts.getD (pts.length - 1) cdflt = pts[pts.length - 1] := by
        rw [List.getD_eq_getElem?_getD, hpe]
        rfl
      refine ⟨?_, ?_, ?_⟩
      · rw [hgd0, hgde]
        have h1 : List.Sublist [pts[0]] (pts.take 1) := by
          have he : pts.take 1 = [pts[0]] := by
            rw [show (1 : ℕ) = 0 + 1 from rfl, List.take_succ, hp0]
            rfl
          rw [he]
        have h2 : List.Sublist [pts[pts.length - 1]] (pts.drop 1) := by
          rw [List.singleton_sublist]
          have hx : (pts.drop 1)[pts.length - 2]? = some pts[pts.length - 1] := by
            rw [List.getElem?_drop, show 1 + (pts.length - 2) = pts.length - 1 by omega]
            exact hpe
          exact List.getElem?_mem hx
        have h3 := List.Sublist.append h1 h2
        rwa [List.take_append_drop] at h3
      · rw [hgd0, hhead]
        rfl
      · rw [hgde, hlast, hpe]
        rfl

/-! ## Lemmas about `simplify_line` -/

theorem simplify_line_sublist (coords : List Coord) (t : ℚ) :
    List.Sublist (simplify_line coords t) coords := by
  unfold simplify_line
  split
  · exact List.Sublist.refl _
  · exact (dp_main t coords.length coords).1

theorem simplify_line_head? (coords : List Coord) (t : ℚ) :
    (simplify_line coords t).head? = coords.head? := by
  unfold simplify_line
  split
  · rfl
  · exact (dp_main t coords.length coords).2.1

theorem simplify_line_getLast? (coords : List Coord) (t : ℚ) :
    (simplify_line coords t).getLast? = coords.getLast? := by
  unfold simplify_line
  split
  · rfl
  · exact (dp_main t coords.length coords).2.2

theorem simplify_line_length_le (coords : List Coord) (t : ℚ) :
    (simplify_line coords t).length ≤ coords.length :=
  (simplify_line_sublist coords t).length_le

/-- The body of the per-line loop of the MultiLineString branch of
`simplify_geometry`: keep the simplification when it retains at least
2 points, otherwise keep the original line. -/
def lineSimp (t : ℚ) (line : Coord) : Coord :=
  if 2 ≤ (simplify_line (asList line) t).length
    then Coord.arr (simplify_line (asList line) t) else line

/-- The body of the per-ring loop of the Polygon and MultiPolygon
branches of `simplify_geometry`: keep the simplification when it
retains at least 4 points, otherwise keep the original ring. -/
def ringSimp (t : ℚ) (ring : Coord) : Coord :=
  if 4 ≤ (simplify_line (asList ring) t).length
    then Coord.arr (simplify_line (asList ring) t) else ring

/-- The body of the per-polygon loop of the MultiPolygon branch of
`simplify_geometry`: simplify each ring and drop the polygon when the
resulting ring list is empty. -/
def polySimp (t : ℚ) (polygon : Coord) : Option Coord :=
  if ((asList polygon).map (ringSimp t)).isEmpty then none
  else some (Coord.arr ((asList polygon).map (ringSimp t)))

/-! ## Per-tag evaluation lemmas -/

theorem countG_point (c : Option Coord) (gs : List Geometry) :
    countG (.mk "Point" c gs) = 1 := by
  simp [countG]

theorem countG_linestring (c : Option Coord) (gs : List Geometry) :
    countG (.mk "LineString" c gs) = clen (coordsD c) := by
  simp [countG]

theorem countG_polygon (c : Option Coord) (gs : List Geometry) :
    countG (.mk "Polygon" c gs) = ((asList (coordsD c)).map clen).sum := by
  simp [countG]

theorem countG_multipolygon (c : Option Coord) (gs : List Geometry) :
    countG (.mk "MultiPolygon" c gs)
      = ((asList (coordsD c)).map (fun polygon => ((asList polygon).map clen).sum)).sum := by
  simp [countG]

theorem countG_multipoint (c : Option Coord) (gs : List Geometry) :
    countG (.mk "MultiPoint" c gs) = ((asList (coordsD c)).map partLen).sum := by
  simp [countG]

theorem countG_multilinestring (c : Option Coord) (gs : List Geometry) :
    countG (.mk "MultiLineString" c gs) = ((asList (coordsD c)).map partLen).sum := by
  simp [countG]

theorem countG_geometrycollection (c : Option Coord) (gs : List Geometry) :
    countG (.mk "GeometryCollection" c gs) = countList gs := by
  simp [countG]

theorem countG_other (ty : String) (c : Option Coord) (gs : List Geometry)
    (h1 : ty ≠ "Point") (h2 : ty ≠ "LineString") (h3 : ty ≠ "Polygon")
    (h4 : ty ≠ "MultiPolygon") (h5 : ty ≠ "MultiPoint")
    (h6 : ty ≠ "MultiLineString") (h7 : ty ≠ "GeometryCollection") :
    countG (.mk ty c gs) = 0 := by
  simp [countG, h1, h2, h3, h4, h5, h6, h7]

theorem sgeom_point (c : Option Coord) (gs : List Geometry) (t : ℚ) :
    simplify_geometry (.mk "Point" c gs) t = .mk "Point" c gs := by
  simp [simplify_geometry]

theorem sgeom_multipoint (c : Option Coord) (gs : List Geometry) (t : ℚ) :
    simplify_geometry (.mk "MultiPoint" c gs) t = .mk "MultiPoint" c gs := by
  simp [simplify_geometry]

theorem sgeom_linestring (c : Option Coord) (gs : List Geometry) (t : ℚ) :
    simplify_geometry (.mk "LineString" c gs) t =
      (if 2 ≤ (simplify_line (asList (coordsD c)) t).length
        then Geometry.mk "LineString" (some (.arr (simplify_line (asList (coordsD c)) t))) gs
        else .mk "LineString" c gs) := by
  simp [simplify_geometry]

theorem sgeom_multilinestring (c : Option Coord) (gs : List Geometry) (t : ℚ) :
    simplify_geometry (.mk "MultiLineString" c gs) t =
      .mk "MultiLineString" (some (.arr ((asList (coordsD c)).map (lineSimp t)))) gs := by
  simp [simplify_geometry, lineSimp]

theorem sgeom_polygon (c : Option Coord) (gs : List Geometry) (t : ℚ) :
    simplify_geometry (.mk "Polygon" c gs) t =
      .mk "Polygon" (some (.arr ((asList (coordsD c)).map (ringSimp t)))) gs := by
  simp [simplify_geometry, ringSimp]

theorem sgeom_multipolygon (c : Option Coord) (gs : List Geometry) (t : ℚ) :
    simplify_geometry (.mk "MultiPolygon" c gs) t =
      .mk "MultiPolygon" (some (.arr ((asList (coordsD c)).filterMap (polySimp t)))) gs := by
  simp [simplify_geometry]
  congr 1
  funext polygon
  simp only [polySimp, List.isEmpty_iff, List.map_eq_nil_iff]
  rfl

theorem sgeom_other (ty : String) (c : Option Coord) (gs : List Geometry) (t : ℚ)
    (h1 : ty ≠ "Point") (h2 : ty ≠ "MultiPoint") (h3 : ty ≠ "LineString")
    (h4 : ty ≠ "MultiLineString") (h5 : ty ≠ "Polygon") (h6 : ty ≠ "MultiPolygon") :
    simplify_geometry (.mk ty c gs) t = .mk ty c gs := by
  simp [simplify_geometry, h1, h2, h3, h4, h5, h6]

/-! ## Counting inequalities for simplification -/

theorem coordsD_some (x : Coord) : coordsD (some x) = x := rfl

theorem asList_arr (l : List Coord) : asList (.arr l) = l := rfl

theorem clen_arr (l : List Coord) : clen (.arr l) = l.length := rfl

theorem clen_eq_asList_length (c : Coord) : clen c = (asList c).length := by
  cases c <;> rfl

/-- The per-ring fallback branch never increases the ring length. -/
theorem ring_branch_clen_le (t : ℚ) (b : ℕ) (part : Coord) :
    clen (if b ≤ (simplify_line (asList part) t).length
      then Coord.arr (simplify_line (asList part) t) else part) ≤ clen part := by
  split
  · rw [clen_arr, clen_eq_asList_length]
    exact simplify_line_length_le _ t
  · exact le_refl _

/-- The per-line fallback branch never increases the MultiLineString
part count. -/
theorem line_branch_partLen_le (t : ℚ) (part : Coord) :
    partLen (if 2 ≤ (simplify_line (asList part) t).length
      then Coord.arr (simplify_line (asList part) t) else part) ≤ partLen part := by
  cases part with
  | num q =>
    have hsl : simplify_line (asList (Coord.num q)) t = [] := rfl
    rw [hsl]
    norm_num
  | arr l =>
    split
    · show (simplify_line (asList (Coord.arr l)) t).length ≤ l.length
      exact simplify_line_length_le _ t
    · exact le_refl _


/-! ## Counting inequalities for simplification -/

/-- The per-ring fallback branch never increases the ring length. -/
theorem ringSimp_clen_le (t : ℚ) (ring : Coord) :
    clen (ringSimp t ring) ≤ clen ring := by
  unfold ringSimp
  split
  · rw [clen_arr, clen_eq_asList_length]
    exact simplify_line_length_le _ t
  · exact le_refl _

/-- The per-line fallback branch never increases the MultiLineString
part count. -/
theorem lineSimp_partLen_le (t : ℚ) (line : Coord) :
    partLen (lineSimp t line) ≤ partLen line := by
  unfold lineSimp
  cases line with
  | num q =>
    have hsl : simplify_line (asList (Coord.num q)) t = [] := rfl
    rw [hsl]
    norm_num
  | arr l =>
    split
    · show (simplify_line (asList (Coord.arr l)) t).length ≤ l.length
      exact simplify_line_length_le _ t
    · exact le_refl _

/-- Dropping empty polygons and shrinking rings never increases the
MultiPolygon coordinate count. -/
theorem polySimp_sum_le (t : ℚ) :
    ∀ polys : List Coord,
      ((polys.filterMap (polySimp t)).map
          (fun polygon => ((asList polygon).map clen).sum)).sum
        ≤ (polys.map (fun polygon => ((asList polygon).map clen).sum)).sum
  | [] => le_refl _
  | p :: ps => by
    have ih := polySimp_sum_le t ps
    by_cases hemp : ((asList p).map (ringSimp t)).isEmpty = true
    · have hpoly : polySimp t p = none := by simp [polySimp, hemp]
      rw [List.filterMap_cons, hpoly, List.map_cons, List.sum_cons]
      exact le_trans ih (Nat.le_add_left _ _)
    · have hpoly : polySimp t p = some (Coord.arr ((asList p).map (ringSimp t))) := by
        simp [polySimp, hemp]
      rw [List.filterMap_cons, hpoly, List.map_cons, List.map_cons, List.sum_cons, List.sum_cons]
      apply Nat.add_le_add _ ih
      rw [asList_arr, List.map_map]
      exact List.sum_le_sum (fun r _ => ringSimp_clen_le t r)

/-- Simplification never increases the coordinate count, whatever the
geometry type. -/
theorem countG_simplify_le (g : Geometry) (t : ℚ) :
    countG (simplify_geometry g t) ≤ countG g := by
  obtain ⟨ty, c, gs⟩ := g
  by_cases h1 : ty = "Point"
  · subst h1
    rw [sgeom_point]
  by_cases h2 : ty = "MultiPoint"
  · subst h2
    rw [sgeom_multipoint]
  by_cases h3 : ty = "LineString"
  · subst h3
    rw [sgeom_linestring]
    split
    · rw [countG_linestring, countG_linestring, coordsD_some, clen_arr,
        clen_eq_asList_length]
      exact simplify_line_length_le _ t
    · exact le_refl _
  by_cases h4 : ty = "MultiLineString"
  · subst h4
    rw [sgeom_multilinestring, countG_multilinestring, countG_multilinestring,
      coordsD_some, asList_arr, List.map_map]
    exact List.sum_le_sum (fun line _ => lineSimp_partLen_le t line)
  by_cases h5 : ty = "Polygon"
  · subst h5
    rw [sgeom_polygon, countG_polygon, countG_polygon, coordsD_some, asList_arr]
    have hmm : ∀ ring : Coord, clen (ringSimp t ring) ≤ clen ring :=
      ringSimp_clen_le t
    rw [List.map_map]
    exact List.sum_le_sum (fun ring _ => hmm ring)
  by_cases h6 : ty = "MultiPolygon"
  · subst h6
    rw [sgeom_multipolygon, countG_multipolygon, countG_multipolygon,
      coordsD_some, asList_arr]
    exact polySimp_sum_le t (asList (coordsD c))
  · rw [sgeom_other ty c gs t h1 h2 h3 h4 h5 h6]

/-! ## Rounding lemmas -/

theorem rhe_intCast (z : ℤ) : rhe (z : ℚ) = z := by
  unfold rhe
  rw [Int.floor_intCast]
  norm_num

theorem pyround_idem (q : ℚ) (p : ℕ) : pyround (pyround q p) p = pyround q p := by
  unfold pyround
  have h10 : ((10 : ℚ)) ^ p ≠ 0 := by positivity
  rw [div_mul_cancel₀ _ h10, rhe_intCast]

mutual

theorem round_coord_idem (p : ℕ) :
    ∀ c, round_coord p (round_coord p c) = round_coord p c
  | .num q => congrArg Coord.num (pyround_idem q p)
  | .arr l => congrArg Coord.arr (round_list_idem p l)

theorem round_list_idem (p : ℕ) :
    ∀ l, round_list p (round_list p l) = round_list p l
  | [] => rfl
  | c :: rest => by
    show round_coord p (round_coord p c) :: round_list p (round_list p rest)
      = round_coord p c :: round_list p rest
    rw [round_coord_idem p c, round_list_idem p rest]

end

theorem round_list_map (p : ℕ) :
    ∀ l : List Coord, round_list p l = l.map (round_coord p)
  | [] => rfl
  | c :: rest => by
    show round_coord p c :: round_list p rest = round_coord p c :: rest.map (round_coord p)
    rw [round_list_map p rest]

theorem round_list_length (p : ℕ) (l : List Coord) :
    (round_list p l).length = l.length := by
  rw [round_list_map, List.length_map]

theorem clen_round (p : ℕ) (c : Coord) : clen (round_coord p c) = clen c := by
  cases c with
  | num q => rfl
  | arr l =>
    show (round_list p l).length = l.length
    exact round_list_length p l

theorem partLen_round (p : ℕ) (c : Coord) : partLen (round_coord p c) = partLen c := by
  cases c with
  | num q => rfl
  | arr l =>
    show (round_list p l).length = l.length
    exact round_list_length p l

theorem asList_round (p : ℕ) (c : Coord) :
    asList (round_coord p c) = round_list p (asList c) := by
  cases c <;> rfl

mutual

theorem depthC_round (p : ℕ) : ∀ c, depthC (round_coord p c) = depthC c
  | .num q => rfl
  | .arr l => by
    show depthList (round_list p l) + 1 = depthList l + 1
    rw [depthList_round p l]

theorem depthList_round (p : ℕ) : ∀ l, depthList (round_list p l) = depthList l
  | [] => rfl
  | c :: rest => by
    show max (depthC (round_coord p c)) (depthList (round_list p rest))
      = max (depthC c) (depthList rest)
    rw [depthC_round p c, depthList_round p rest]

end

/-- The per-polygon coordinate count is unchanged by rounding. -/
theorem polygon_count_round (p : ℕ) (poly : Coord) :
    ((asList (round_coord p poly)).map clen).sum = ((asList poly).map clen).sum := by
  rw [asList_round, round_list_map, List.map_map]
  exact congrArg List.sum (List.map_congr_left (fun r _ => clen_round p r))

/-- Evaluation of `round_coordinates` on a record with a present
`coordinates` field. -/
theorem round_coordinates_some (ty : String) (cc : Coord) (gs : List Geometry) (p : ℕ) :
    round_coordinates (.mk ty (some cc) gs) p =
      if falsyC cc then .mk ty (some cc) gs else .mk ty (some (round_coord p cc)) gs := rfl

/-- Rounding never changes the coordinate count of a geometry. -/
theorem countG_round (g : Geometry) (p : ℕ) :
    countG (round_coordinates g p) = countG g := by
  obtain ⟨ty, c, gs⟩ := g
  cases c with
  | none => rfl
  | some cc =>
    rw [round_coordinates_some]
    by_cases hf : falsyC cc
    · rw [if_pos hf]
    · rw [if_neg hf]
      by_cases h1 : ty = "Point"
      · subst h1
        rw [countG_point, countG_point]
      by_cases h2 : ty = "LineString"
      · subst h2
        rw [countG_linestring, countG_linestring, coordsD_some, coordsD_some,
          clen_round]
      by_cases h3 : ty = "Polygon"
      · subst h3
        rw [countG_polygon, countG_polygon, coordsD_some, coordsD_some]
        exact polygon_count_round p cc
      by_cases h4 : ty = "MultiPolygon"
      · subst h4
        rw [countG_multipolygon, countG_multipolygon, coordsD_some, coordsD_some,
          asList_round, round_list_map, List.map_map]
        exact congrArg List.sum
          (List.map_congr_left (fun poly _ => polygon_count_round p poly))
      by_cases h5 : ty = "MultiPoint"
      · subst h5
        rw [countG_multipoint, countG_multipoint, coordsD_some, coordsD_some,
          asList_round, round_list_map, List.map_map]
        exact congrArg List.sum
          (List.map_congr_left (fun part _ => partLen_round p part))
      by_cases h6 : ty = "MultiLineString"
      · subst h6
        rw [countG_multilinestring, countG_multilinestring, coordsD_some,
          coordsD_some, asList_round, round_list_map, List.map_map]
        exact congrArg List.sum
          (List.map_congr_left (fun part _ => partLen_round p part))
      by_cases h7 : ty = "GeometryCollection"
      · subst h7
        rw [countG_geometrycollection, countG_geometrycollection]
      · rw [countG_other ty _ gs h1 h2 h3 h4 h5 h6 h7,
          countG_other ty _ gs h1 h2 h3 h4 h5 h6 h7]

/-- Rounding never changes the nesting depth of the coordinates. -/
theorem depthG_round (g : Geometry) (p : ℕ) :
    depthG (round_coordinates g p) = depthG g := by
  obtain ⟨ty, c, gs⟩ := g
  cases c with
  | none => rfl
  | some cc =>
    rw [round_coordinates_some]
    by_cases hf : falsyC cc
    · rw [if_pos hf]
    · rw [if_neg hf]
      show depthC (round_coord p cc) = depthC cc
      exact depthC_round p cc

/-- Rounding a geometry twice at the same precision equals rounding it
once. -/
theorem round_coordinates_idem (g : Geometry) (p : ℕ) :
    round_coordinates (round_coordinates g p) p = round_coordinates g p := by
  obtain ⟨ty, c, gs⟩ := g
  cases c with
  | none => rfl
  | some cc =>
    by_cases hf : falsyC cc
    · have h1 : round_coordinates (.mk ty (some cc) gs) p = .mk ty (some cc) gs := by
        rw [round_coordinates_some, if_pos hf]
      rw [h1, h1]
    · have h1 : round_coordinates (.mk ty (some cc) gs) p
          = .mk ty (some (round_coord p cc)) gs := by
        rw [round_coordinates_some, if_neg hf]
      rw [h1]
      by_cases hf2 : falsyC (round_coord p cc)
      · rw [round_coordinates_some, if_pos hf2]
      · rw [round_coordinates_some, if_neg hf2, round_coord_idem]

/-- Both operations only ever touch the `coordinates` field: the type
tag and the member list are preserved. -/
theorem simplify_geometry_frame (g : Geometry) (t : ℚ) :
    (simplify_geometry g t).type = g.type ∧
      (simplify_geometry g t).geometries = g.geometries := by
  obtain ⟨ty, c, gs⟩ := g
  by_cases h1 : ty = "Point"
  · subst h1
    rw [sgeom_point]
    exact ⟨rfl, rfl⟩
  by_cases h2 : ty = "MultiPoint"
  · subst h2
    rw [sgeom_multipoint]
    exact ⟨rfl, rfl⟩
  by_cases h3 : ty = "LineString"
  · subst h3
    rw [sgeom_linestring]
    split
    · exact ⟨rfl, rfl⟩
    · exact ⟨rfl, rfl⟩
  by_cases h4 : ty = "MultiLineString"
  · subst h4
    rw [sgeom_multilinestring]
    exact ⟨rfl, rfl⟩
  by_cases h5 : ty = "Polygon"
  · subst h5
    rw [sgeom_polygon]
    exact ⟨rfl, rfl⟩
  by_cases h6 : ty = "MultiPolygon"
  · subst h6
    rw [sgeom_multipolygon]
    exact ⟨rfl, rfl⟩
  · rw [sgeom_other ty c gs t h1 h2 h3 h4 h5 h6]
    exact ⟨rfl, rfl⟩

theorem round_coordinates_frame (g : Geometry) (p : ℕ) :
    (round_coordinates g p).type = g.type ∧
      (round_coordinates g p).geometries = g.geometries := by
  obtain ⟨ty, c, gs⟩ := g
  cases c with
  | none => exact ⟨rfl, rfl⟩
  | some cc =>
    rw [round_coordinates_some]
    by_cases hf : falsyC cc
    · rw [if_pos hf]
      exact ⟨rfl, rfl⟩
    · rw [if_neg hf]
      exact ⟨rfl, rfl⟩

/-! ## Zero-tolerance fixed point machinery -/

/-- No three consecutive points of the sequence are exactly collinear. -/
def noTriple (pts : List Coord) : Prop :=
  ∀ i, i + 2 < pts.length →
    ¬ collin (pts.getD i cdflt) (pts.getD (i + 1) cdflt) (pts.getD (i + 2) cdflt)

theorem getD_take (pts : List Coord) (m j : ℕ) (hj : j < m) :
    (pts.take m).getD j cdflt = pts.getD j cdflt := by
  rw [List.getD_eq_getElem?_getD, List.getD_eq_getElem?_getD, List.getElem?_take,
    if_pos hj]

theorem getD_drop (pts : List Coord) (m j : ℕ) :
    (pts.drop m).getD j cdflt = pts.getD (m + j) cdflt := by
  rw [List.getD_eq_getElem?_getD, List.getD_eq_getElem?_getD, List.getElem?_drop]

/-- The no-collinear-triple property passes to a prefix. -/
theorem noTriple_take (pts : List Coord) (m : ℕ) (h : noTriple pts) :
    noTriple (pts.take m) := by
  intro i hi
  have hlt : (pts.take m).length ≤ pts.length := by
    rw [List.length_take]; omega
  have hlm : (pts.take m).length ≤ m := by
    rw [List.length_take]; omega
  rw [getD_take pts m i (by omega), getD_take pts m (i + 1) (by omega),
    getD_take pts m (i + 2) (by omega)]
  exact h i (by omega)

/-- The no-collinear-triple property passes to a suffix. -/
theorem noTriple_drop (pts : List Coord) (m : ℕ) (h : noTriple pts) :
    noTriple (pts.drop m) := by
  intro i hi
  rw [getD_drop, getD_drop, getD_drop]
  have hlen : (pts.drop m).length = pts.length - m := List.length_drop m pts
  have e1 : m + (i + 1) = m + i + 1 := by omega
  have e2 : m + (i + 2) = m + i + 2 := by omega
  rw [e1, e2]
  exact h (m + i) (by omega)

/-- A vanishing squared distance with a non-degenerate reference line
forces the numerator of the distance formula to vanish. -/
theorem perp_num_eq_zero (pnt a b : Coord)
    (hden : (pyq b - pyq a) ^ 2 + (pxq b - pxq a) ^ 2 ≠ 0)
    (h : perpendicular_distance_sq pnt a b = 0) :
    (pyq b - pyq a) * pxq pnt - (pxq b - pxq a) * pyq pnt
      + pxq b * pyq a - pyq b * pxq a = 0 := by
  simp only [perpendicular_distance_sq] at h
  rw [if_neg hden] at h
  rcases div_eq_zero_iff.mp h with h2 | h2
  · exact (pow_eq_zero_iff (by norm_num : (2 : ℕ) ≠ 0)).mp h2
  · exact absurd h2 hden

/-- A vanishing squared distance with a degenerate reference line means
the point coincides with the line start in both coordinates. -/
theorem perp_den_zero_eq (pnt a b : Coord)
    (hden : (pyq b - pyq a) ^ 2 + (pxq b - pxq a) ^ 2 = 0)
    (h : perpendicular_distance_sq pnt a b = 0) :
    pxq pnt = pxq a ∧ pyq pnt = pyq a := by
  simp only [perpendicular_distance_sq] at h
  rw [if_pos hden] at h
  have hx : (pxq pnt - pxq a) ^ 2 = 0 := by
    nlinarith [sq_nonneg (pxq pnt - pxq a), sq_nonneg (pyq pnt - pyq a)]
  have hy : (pyq pnt - pyq a) ^ 2 = 0 := by
    nlinarith [sq_nonneg (pxq pnt - pxq a), sq_nonneg (pyq pnt - pyq a)]
  constructor
  · exact sub_eq_zero.mp ((pow_eq_zero_iff (by norm_num : (2 : ℕ) ≠ 0)).mp hx)
  · exact sub_eq_zero.mp ((pow_eq_zero_iff (by norm_num : (2 : ℕ) ≠ 0)).mp hy)

/-- A degenerate reference line has coinciding endpoints. -/
theorem den_zero_eq (a b : Coord)
    (hden : (pyq b - pyq a) ^ 2 + (pxq b - pxq a) ^ 2 = 0) :
    pxq b = pxq a ∧ pyq b = pyq a := by
  have hx : (pxq b - pxq a) ^ 2 = 0 := by
    nlinarith [sq_nonneg (pxq b - pxq a), sq_nonneg (pyq b - pyq a)]
  have hy : (pyq b - pyq a) ^ 2 = 0 := by
    nlinarith [sq_nonneg (pxq b - pxq a), sq_nonneg (pyq b - pyq a)]
  constructor
  · exact sub_eq_zero.mp ((pow_eq_zero_iff (by norm_num : (2 : ℕ) ≠ 0)).mp hx)
  · exact sub_eq_zero.mp ((pow_eq_zero_iff (by norm_num : (2 : ℕ) ≠ 0)).mp hy)

/-- Zero distance to the chord from a to b makes a, the point, and b
collinear. -/
theorem collin_of_perp_zero (a p b : Coord)
    (h : perpendicular_distance_sq p a b = 0) : collin a p b := by
  unfold collin
  by_cases hden : (pyq b - pyq a) ^ 2 + (pxq b - pxq a) ^ 2 = 0
  · obtain ⟨hx, hy⟩ := perp_den_zero_eq p a b hden h
    obtain ⟨hbx, hby⟩ := den_zero_eq a b hden
    rw [hx, hy, hbx, hby]
    ring
  · have hnum := perp_num_eq_zero p a b hden h
    linear_combination hnum

/-- Two points at zero distance from the same non-degenerate chord are
collinear with the chord start. -/
theorem collin_of_two_perp_zero (a b p q : Coord)
    (hp : perpendicular_distance_sq p a b = 0)
    (hq : perpendicular_distance_sq q a b = 0) : collin a p q := by
  unfold collin
  by_cases hden : (pyq b - pyq a) ^ 2 + (pxq b - pxq a) ^ 2 = 0
  · obtain ⟨hx, hy⟩ := perp_den_zero_eq p a b hden hp
    rw [hx, hy]
    ring
  · have hnp := perp_num_eq_zero p a b hden hp
    have hnq := perp_num_eq_zero q a b hden hq
    have h1 : (pxq b - pxq a) *
        ((pxq p - pxq a) * (pyq q - pyq a) - (pxq q - pxq a) * (pyq p - pyq a)) = 0 := by
      linear_combination (pxq q - pxq a) * hnp - (pxq p - pxq a) * hnq
    have h2 : (pyq b - pyq a) *
        ((pxq p - pxq a) * (pyq q - pyq a) - (pxq q - pxq a) * (pyq p - pyq a)) = 0 := by
      linear_combination (pyq q - pyq a) * hnp - (pyq p - pyq a) * hnq
    by_cases hbx : pxq b - pxq a = 0
    · have hby : pyq b - pyq a ≠ 0 := by
        intro hby
        apply hden
        rw [hbx, hby]
        ring
      rcases mul_eq_zero.mp h2 with h3 | h3
      · exact absurd h3 hby
      · exact h3
    · rcases mul_eq_zero.mp h1 with h3 | h3
      · exact absurd h3 hbx
      · exact h3

/-- With zero tolerance, the recursive pass keeps every point of a
sequence with no three consecutive collinear points. -/
theorem dp_zero_fixed :
    ∀ (fuel : ℕ) (pts : List Coord), noTriple pts →
      douglas_peucker 0 fuel pts = pts
  | 0, _, _ => rfl
  | fuel + 1, pts, h => by
    simp only [douglas_peucker, zero_mul]
    by_cases hlen : pts.length ≤ 2
    · rw [if_pos hlen]
    rw [if_neg hlen]
    push_neg at hlen
    set f := fun i => perpendicular_distance_sq (pts.getD i cdflt)
      (pts.getD 0 cdflt) (pts.getD (pts.length - 1) cdflt) with hf
    set m := scanMax f (List.range' 1 (pts.length - 2)) (0, 0) with hm
    by_cases hgt : 0 < m.2
    · rw [if_pos hgt]
      obtain ⟨hk1, hk2⟩ := scanMax_bounds f (pts.length - 2) hgt
      set k := m.1
      have ih1 := dp_zero_fixed fuel (pts.take (k + 1)) (noTriple_take pts (k + 1) h)
      have ih2 := dp_zero_fixed fuel (pts.drop k) (noTriple_drop pts k h)
      rw [ih1, ih2, List.dropLast_eq_take, List.length_take]
      have hmin : min (k + 1) pts.length = k + 1 := by omega
      rw [hmin, Nat.add_sub_cancel, List.take_take]
      have hmin2 : min k (k + 1) = k := by omega
      rw [hmin2, List.take_append_drop]
    · rw [if_neg hgt]
      exfalso
      push_neg at hgt
      have hone : (1 : ℕ) ∈ List.range' 1 (pts.length - 2) := by
        rw [List.mem_range'_1]
        omega
      have hf1 : perpendicular_distance_sq (pts.getD 1 cdflt) (pts.getD 0 cdflt)
          (pts.getD (pts.length - 1) cdflt) = 0 := by
        have h1 : f 1 ≤ m.2 := scanMax_le_of_mem f _ (0, 0) 1 hone
        have h2 : 0 ≤ f 1 := perpendicular_distance_sq_nonneg _ _ _
        exact le_antisymm (le_trans h1 hgt) h2
      by_cases h3 : pts.length = 3
      · have he : pts.length - 1 = 2 := by omega
        rw [he] at hf1
        have hcol := collin_of_perp_zero (pts.getD 0 cdflt) (pts.getD 1 cdflt)
          (pts.getD 2 cdflt) hf1
        exact h 0 (by omega) hcol
      · have htwo : (2 : ℕ) ∈ List.range' 1 (pts.length - 2) := by
          rw [List.mem_range'_1]
          omega
        have hf2 : perpendicular_distance_sq (pts.getD 2 cdflt) (pts.getD 0 cdflt)
            (pts.getD (pts.length - 1) cdflt) = 0 := by
          have h1 : f 2 ≤ m.2 := scanMax_le_of_mem f _ (0, 0) 2 htwo
          have h2 : 0 ≤ f 2 := perpendicular_distance_sq_nonneg _ _ _
          exact le_antisymm (le_trans h1 hgt) h2
        have hcol := collin_of_two_perp_zero (pts.getD 0 cdflt)
          (pts.getD (pts.length - 1) cdflt) (pts.getD 1 cdflt) (pts.getD 2 cdflt) hf1 hf2
        exact h 0 (by omega) hcol

/-- With zero tolerance, `simplify_line` is the identity on sequences
with no three consecutive collinear points. -/
theorem simplify_line_zero_fixed (pts : List Coord) (h : noTriple pts) :
    simplify_line pts 0 = pts := by
  unfold simplify_line
  split
  · rfl
  · exact dp_zero_fixed pts.length pts h

/-! ## Concrete inputs used by witnesses and counterexamples -/

/-- A two dimensional point as a coordinate node. -/
def pt2 (x y : ℚ) : Coord := .arr [.num x, .num y]

/-- A square ring of five points, every simplification of which
collapses to its two (equal) endpoints under a large tolerance. -/
def mpRing : Coord := .arr [pt2 0 0, pt2 1 0, pt2 1 1, pt2 0 1, pt2 0 0]

/-- A MultiPolygon holding one polygon made of the collapsing ring. -/
def mpGeom : Geometry := .mk "MultiPolygon" (some (.arr [.arr [mpRing]])) []

/-- A LineString whose middle point is removed by simplification at
tolerance 10. -/
def lineGeom : Geometry := .mk "LineString" (some (.arr [pt2 0 0, pt2 1 1, pt2 2 0])) []

/-- A Point with more decimal places than precision 4 keeps. -/
def ptGeom : Geometry :=
  .mk "Point" (some (.arr [.num (123456789 / 10000000), .num (-456789012 / 10000000)])) []

/-- The `countList` recursion is the sum of the member counts. -/
theorem countList_eq_sum : ∀ gs : List Geometry, countList gs = (gs.map countG).sum
  | [] => rfl
  | g :: rest => by
    rw [List.map_cons, List.sum_cons]
    show countG g + countList rest = countG g + (rest.map countG).sum
    rw [countList_eq_sum rest]

/-! ## Claims -/

/-- C1 counterexample: in `mpGeom` every ring of every polygon collapses
below 4 points at tolerance 10 (the single ring simplifies to 2
points), yet the resulting coordinates sequence holds one polygon, not
zero: the claimed all-collapse-to-empty behaviour is false on the
code, whose per-ring fallback keeps the original ring. -/
theorem claim_C1_counterexample :
    (simplify_line (asList mpRing) 10).length < 4 ∧
      ¬ (asList (coordsD (simplify_geometry mpGeom 10).coordinates)).length = 0 := by
  have h1 : (simplify_line (asList mpRing) 10).length = 2 := by
    with_unfolding_all rfl
  have h2 : (asList (coordsD (simplify_geometry mpGeom 10).coordinates)).length = 1 := by
    with_unfolding_all rfl
  constructor
  · omega
  · omega

/-- C1 (corrected): on a MultiPolygon, `simplify_geometry` simplifies
each ring but keeps the original ring whenever the simplification drops
below 4 points, so a polygon is dropped only when it contains no rings
at all; in particular a MultiPolygon in which every ring of every
(non-empty) polygon collapses below 4 points is returned entirely
unchanged, polygons included. -/
theorem claim_C1_amended (polys : List Coord) (t : ℚ) (gs : List Geometry)
    (h : ∀ p ∈ polys, ∃ rings : List Coord, p = .arr rings ∧ rings ≠ [] ∧
      ∀ r ∈ rings, (simplify_line (asList r) t).length < 4) :
    simplify_geometry (.mk "MultiPolygon" (some (.arr polys)) gs) t
      = .mk "MultiPolygon" (some (.arr polys)) gs := by
  rw [sgeom_multipolygon, coordsD_some, asList_arr]
  have hfm : ∀ ps : List Coord,
      (∀ p ∈ ps, ∃ rings : List Coord, p = .arr rings ∧ rings ≠ [] ∧
        ∀ r ∈ rings, (simplify_line (asList r) t).length < 4) →
      ps.filterMap (polySimp t) = ps := by
    intro ps
    induction ps with
    | nil => intro _; rfl
    | cons p rest ih =>
      intro hps
      obtain ⟨rings, hpr, hne, hcollapse⟩ := hps p (List.mem_cons_self p rest)
      have hmap : rings.map (ringSimp t) = rings := by
        have hcong : rings.map (ringSimp t) = rings.map id :=
          List.map_congr_left (fun r hr => by
            unfold ringSimp
            rw [if_neg (Nat.not_le.mpr (hcollapse r hr))]
            rfl)
        rw [hcong, List.map_id]
      have hpoly : polySimp t p = some p := by
        subst hpr
        unfold polySimp
        rw [asList_arr, hmap]
        rw [if_neg (by simp [hne])]
      rw [List.filterMap_cons, hpoly,
        ih (fun q hq => hps q (List.mem_cons_of_mem p hq))]
  rw [hfm polys h]

/-- C1 witness: the amended statement at the concrete all-collapsing
MultiPolygon. -/
theorem claim_C1_witness : simplify_geometry mpGeom 10 = mpGeom := by
  have h := claim_C1_amended [.arr [mpRing]] 10 []
  apply h
  intro p hp
  have hp1 : p = .arr [mpRing] := by
    rcases List.mem_singleton.mp hp with h1
    exact h1
  refine ⟨[mpRing], hp1, by simp, ?_⟩
  intro r hr
  have hr1 : r = mpRing := List.mem_singleton.mp hr
  subst hr1
  have h2 : (simplify_line (asList mpRing) 10).length = 2 := by
    with_unfolding_all rfl
  omega

/-- C2 counterexample: both operations mutate their argument object in
place (the source assigns into `geometry` and returns it), so after the
calls the caller side values of `lineGeom` and `ptGeom` differ from
their pre-call values: the claimed absence of observable mutation is
false on the code. -/
theorem claim_C2_counterexample :
    simplify_geometry_post lineGeom 10 ≠ lineGeom ∧
      round_coordinates_post ptGeom 4 ≠ ptGeom := by
  constructor
  · have h1 : simplify_geometry_post lineGeom 10
        = .mk "LineString" (some (.arr [pt2 0 0, pt2 2 0])) [] := by
      with_unfolding_all rfl
    rw [h1]
    intro h2
    have h3 : (some (Coord.arr [pt2 0 0, pt2 2 0]) : Option Coord)
        = some (.arr [pt2 0 0, pt2 1 1, pt2 2 0]) := congrArg Geometry.coordinates h2
    have h4 := congrArg asList (Option.some_inj.mp h3)
    rw [asList_arr, asList_arr] at h4
    simp at h4
  · have h1 : round_coordinates_post ptGeom 4
        = .mk "Point" (some (.arr [.num (123457 / 10000), .num (-456789 / 10000)])) [] := by
      with_unfolding_all rfl
    rw [h1]
    intro h2
    have h3 : (some (Coord.arr [.num (123457 / 10000), .num (-456789 / 10000)]) : Option Coord)
        = some (.arr [.num (123456789 / 10000000), .num (-456789012 / 10000000)]) :=
      congrArg Geometry.coordinates h2
    have h4 := Option.some_inj.mp h3
    have h5 : (123457 / 10000 : ℚ) = 123456789 / 10000000 := by
      have := congrArg (fun c => match c with
        | Coord.arr (Coord.num x :: _) => x
        | _ => 0) h4
      simpa using this
    norm_num at h5

/-- C2 (corrected): `simplify_geometry` and `round_coordinates` update
their argument object in place and return that same object, so the
post-call value of the input equals the returned geometry rather than
the pre-call value; the mutation is confined to the `coordinates`
field, the type tag and member list being preserved.  (The orchestration
in `optimize_geojson` compensates by passing a copy of the feature
geometry.) -/
theorem claim_C2_amended (g : Geometry) (t : ℚ) (p : ℕ) :
    simplify_geometry_post g t = simplify_geometry g t ∧
      round_coordinates_post g p = round_coordinates g p ∧
      (simplify_geometry g t).type = g.type ∧
      (simplify_geometry g t).geometries = g.geometries ∧
      (round_coordinates g p).type = g.type ∧
      (round_coordinates g p).geometries = g.geometries :=
  ⟨rfl, rfl, (simplify_geometry_frame g t).1, (simplify_geometry_frame g t).2,
    (round_coordinates_frame g p).1, (round_coordinates_frame g p).2⟩

/-- C3 (confirmed): for every input sequence and positive tolerance,
`simplify_line` returns an order-preserving subsequence of the input
whose first and last elements agree with those of the input (the
optional head and last values coincide, which on a non-empty input
forces equal first and last points). -/
theorem claim_C3_subsequence_endpoints (coords : List Coord) (t : ℚ) (_ht : 0 < t) :
    List.Sublist (simplify_line coords t) coords ∧
      (simplify_line coords t).head? = coords.head? ∧
      (simplify_line coords t).getLast? = coords.getLast? :=
  ⟨simplify_line_sublist coords t, simplify_line_head? coords t,
    simplify_line_getLast? coords t⟩

/-- C3 witness: the theorem applied to a concrete three-point line at
tolerance 1. -/
theorem claim_C3_witness :
    List.Sublist (simplify_line [pt2 0 0, pt2 1 1, pt2 2 0] 1) [pt2 0 0, pt2 1 1, pt2 2 0] ∧
      (simplify_line [pt2 0 0, pt2 1 1, pt2 2 0] 1).head? = [pt2 0 0, pt2 1 1, pt2 2 0].head? ∧
      (simplify_line [pt2 0 0, pt2 1 1, pt2 2 0] 1).getLast?
        = [pt2 0 0, pt2 1 1, pt2 2 0].getLast? :=
  claim_C3_subsequence_endpoints [pt2 0 0, pt2 1 1, pt2 2 0] 1 (by norm_num)

/-- C4 (confirmed): scenario 1 of the specification, computed on the
exact rational embedding: the point at index 1 is dropped and the
point at index 3 survives as the maximum-deviation pivot. -/
theorem claim_C4_scenario1 :
    simplify_line [pt2 0 0, pt2 1 (1 / 100000), pt2 2 0, pt2 3 10, pt2 4 0] (1 / 1000)
      = [pt2 0 0, pt2 2 0, pt2 3 10, pt2 4 0] := by
  with_unfolding_all rfl

/-- C5 (confirmed): for every geometry and every tolerance at least 0,
the coordinate count after simplification never exceeds the input
count. -/
theorem claim_C5_count_monotone (g : Geometry) (t : ℚ) (_ht : 0 ≤ t) :
    countG (simplify_geometry g t) ≤ countG g :=
  countG_simplify_le g t

/-- C5 witness: the theorem applied to the concrete LineString at
tolerance 1. -/
theorem claim_C5_witness : countG (simplify_geometry lineGeom 1) ≤ countG lineGeom :=
  claim_C5_count_monotone lineGeom 1 (by norm_num)

/-- C6 counterexample: a geometry tagged Point with no coordinates
field is counted as 1, not 0 — the Point branch of the counter fires
before any look at the coordinates. -/
theorem claim_C6_counterexample :
    ¬ countG (.mk "Point" none []) = 0 := by
  have h1 : countG (.mk "Point" none []) = 1 := countG_point none []
  omega

/-- C6 (corrected): the counter returns 0 for a missing geometry and
for an unset coordinates field under every recognized tag except Point
and GeometryCollection; a geometry tagged Point always counts as 1,
whether or not its coordinates are set (so in particular a well-formed
Point counts as 1, but a coordinate-less Point does too, contrary to
the original claim). -/
theorem claim_C6_amended (ty : String) (c : Option Coord) (gs : List Geometry) :
    count_coordinates none = 0 ∧
      countG (.mk "Point" c gs) = 1 ∧
      (ty ≠ "Point" → ty ≠ "GeometryCollection" → countG (.mk ty none gs) = 0) := by
  refine ⟨rfl, countG_point c gs, ?_⟩
  intro h1 h7
  by_cases h2 : ty = "LineString"
  · subst h2
    rw [countG_linestring]
    rfl
  by_cases h3 : ty = "Polygon"
  · subst h3
    rw [countG_polygon]
    rfl
  by_cases h4 : ty = "MultiPolygon"
  · subst h4
    rw [countG_multipolygon]
    rfl
  by_cases h5 : ty = "MultiPoint"
  · subst h5
    rw [countG_multipoint]
    rfl
  by_cases h6 : ty = "MultiLineString"
  · subst h6
    rw [countG_multilinestring]
    rfl
  · exact countG_other ty none gs h1 h2 h3 h4 h5 h6 h7

/-- C6 witness: the amended statement instantiated at the LineString
tag, with both side conditions discharged. -/
theorem claim_C6_witness :
    count_coordinates none = 0 ∧
      countG (.mk "Point" none []) = 1 ∧
      countG (.mk "LineString" none []) = 0 :=
  ⟨(claim_C6_amended "LineString" none []).1,
    (claim_C6_amended "LineString" none []).2.1,
    (claim_C6_amended "LineString" none []).2.2 (by simp) (by simp)⟩

/-- C7 (confirmed): rounding is idempotent — rounding a geometry twice
at the same precision equals rounding it once (precisions are modelled
as naturals, covering every precision at least 0). -/
theorem claim_C7_round_idempotent (g : Geometry) (p : ℕ) :
    round_coordinates (round_coordinates g p) p = round_coordinates g p :=
  round_coordinates_idem g p

/-- C8 (confirmed): rounding preserves shape — the coordinate count and
the nesting depth of the coordinates payload are unchanged for every
geometry and precision. -/
theorem claim_C8_round_shape (g : Geometry) (p : ℕ) :
    countG (round_coordinates g p) = countG g ∧
      depthG (round_coordinates g p) = depthG g :=
  ⟨countG_round g p, depthG_round g p⟩

/-- C9 (confirmed): with tolerance 0, `simplify_line` returns its input
unchanged whenever no three consecutive points are exactly collinear. -/
theorem claim_C9_zero_tolerance (pts : List Coord) (h : noTriple pts) :
    simplify_line pts 0 = pts :=
  simplify_line_zero_fixed pts h

/-- C9 witness: the theorem applied to a concrete three-point sequence
with no collinear triple. -/
theorem claim_C9_witness :
    simplify_line [pt2 0 0, pt2 1 1, pt2 2 0] 0 = [pt2 0 0, pt2 1 1, pt2 2 0] := by
  apply claim_C9_zero_tolerance
  intro i hi
  simp only [List.length_cons, List.length_nil] at hi
  have hi0 : i = 0 := by omega
  subst hi0
  simp only [List.getD_cons_zero, List.getD_cons_succ]
  simp [collin, pt2, pxq, pyq]

/-- C10 (confirmed): a GeometryCollection (whose record carries its
members in `geometries` and no `coordinates` field) is returned
entirely unchanged by both `round_coordinates` and
`simplify_geometry` — neither recurses into the members — while the
counter does recurse, summing the member counts. -/
theorem claim_C10_geometrycollection (gs : List Geometry) (p : ℕ) (t : ℚ) :
    round_coordinates (.mk "GeometryCollection" none gs) p
        = .mk "GeometryCollection" none gs ∧
      simplify_geometry (.mk "GeometryCollection" none gs) t
        = .mk "GeometryCollection" none gs ∧
      countG (.mk "GeometryCollection" none gs) = (gs.map countG).sum := by
  refine ⟨rfl, ?_, ?_⟩
  · exact sgeom_other "GeometryCollection" none gs t (by simp) (by simp) (by simp)
      (by simp) (by simp) (by simp)
  · rw [countG_geometrycollection]
    exact countList_eq_sum gs
